import Mathlib

/-
Verification of the state-machine model layer of the CyberiadaHSM editor
(src/cyberiadasm_model.cpp) through a shallow embedding.

The embedding follows the source function by function:
  - CyberiadaSMModel::generateID        → generateIDLoop / generateID
  - CyberiadaSMModel::addToMap          → addToMap (with the while loop as resolveId)
  - CyberiadaSMModel::convertNode       → convertNodeCore
  - CyberiadaSMModel::addChildNodes     → addNode / addNodes (non-top branch),
                                          addTopNodes (top-level branch)
  - CyberiadaSMModel::convertEdge       → convertEdge
  - CyberiadaSMModel::loadGraph         → loadGraph / processEdges
  - CyberiadaSMModel::setData           → setData
  - CyberiadaSMModel::hasIndex          → hasIndex
  - CyberiadaSMModel::index             → modelIndex
  - CyberiadaSMModel::mimeData/mimeTypes→ mimeData / mimeTypes / mimeEncode
  - CyberiadaSMModel::move              → moveItem (body commented out in source)

The item classes (cyberiadasm_item.h) and the constants header are not part
of the provided sources; the definitions that stand in for them carry a
doc comment starting with "Modelled from the spec:".
-/

/-- Node types of the parsed Cyberiada document as far as convertNode
discriminates them: cybNodeInitial and cybNodeComment are matched explicitly
in the source, and cybNodeOther stands for every remaining node type, all of
which fall into the final else branch producing a state item. -/
inductive CybNodeType where
  | cybNodeInitial
  | cybNodeComment
  | cybNodeOther
deriving DecidableEq, Repr

/-- Geometry rectangle of a document node (node->geometry_rect).  Coordinates
are modelled as integers; the source copies them verbatim and never
interprets them, so nothing here depends on their arithmetic. -/
structure CybRect where
  x : Int
  y : Int
  w : Int
  h : Int
deriving DecidableEq, Repr

/-- A plain point (CyberiadaSMPoint). -/
structure CybPoint where
  x : Int
  y : Int
deriving DecidableEq, Repr

mutual
/-- A node of the parsed document (CyberiadaNode): type, id, title, action
text, geometry rectangle, and the list of child nodes.  The list is encoded
as the mutual inductive CyberiadaNodeList so that all recursion over the
node tree is structural. -/
inductive CyberiadaNode where
  | mk : CybNodeType → String → String → String → CybRect → CyberiadaNodeList → CyberiadaNode
/-- A sibling list of document nodes (the next pointers of CyberiadaNode). -/
inductive CyberiadaNodeList where
  | nil : CyberiadaNodeList
  | cons : CyberiadaNode → CyberiadaNodeList → CyberiadaNodeList
end

/-- Item categories of the editor tree (the getType tags used by the model). -/
inductive ItemType where
  | nodeRoot
  | nodeSM
  | nodeStatesAggr
  | nodeTransitionsAggr
  | nodeState
  | nodeInitialState
  | nodeComment
  | nodeTransition
  | nodeAction
deriving DecidableEq, Repr

/-- Modelled from the spec: geometry carried by a state-like item — a
position and a size (CyberiadaStateGeometry); for an initial-state item the
source stores only a point, modelled here by a zero size. -/
structure StateGeometry where
  pos : CybPoint
  size : CybPoint
deriving DecidableEq, Repr

mutual
/-- Modelled from the spec: a geometry-bearing tree item of the states
subtree (state, initial-state or comment; the item classes live in the
missing cyberiadasm_item.h).  Fields: category tag, identifier, title
(free text for comments), action text, geometry, owned children. -/
inductive GItem where
  | mk : ItemType → String → String → String → StateGeometry → GItemList → GItem
/-- An ordered child sequence of geometry items. -/
inductive GItemList where
  | nil : GItemList
  | cons : GItem → GItemList → GItemList
end

def GItem.typeOf : GItem → ItemType
  | GItem.mk t _ _ _ _ _ => t

def GItem.idOf : GItem → String
  | GItem.mk _ i _ _ _ _ => i

def GItem.titleOf : GItem → String
  | GItem.mk _ _ ti _ _ _ => ti

def GItem.childrenOf : GItem → GItemList
  | GItem.mk _ _ _ _ _ cs => cs

/-- Replace the (still empty) child sequence of a freshly constructed item:
in the source the children are attached to the item object after it has been
constructed and registered. -/
def GItem.withChildren : GItem → GItemList → GItem
  | GItem.mk t i ti a g _, cs => GItem.mk t i ti a g cs

/-- The identifier index (states_map): a finite map from committed identifier
to the item as it was registered. -/
abbrev SMMap := List (String × GItem)

/-- QMap::contains on the identifier index. -/
def containsKey (m : SMMap) (k : String) : Bool :=
  m.any (fun p => p.1 == k)

/-- QMap::value with a NULL default, as an Option. -/
def mapValue (m : SMMap) (k : String) : Option GItem :=
  (m.find? (fun p => p.1 == k)).map Prod.snd

/-- Numeric value of a decimal digit character. -/
def digitVal (c : Char) : Nat := c.toNat - 48

/-- Modelled from the Qt library: the place-marker scan of QString::arg.  It
collects the numbers of all %N place markers (N one or two decimal digits)
occurring in the character list; QString::arg substitutes its argument for
the lowest-numbered marker and, when the list is empty, returns the string
unchanged (emitting a runtime warning).  The %% escape is not modelled; no
string in this development contains it. -/
def markerHead (c : Char) : List Char → List Nat
  | [] => []
  | c1 :: rest1 =>
    if c = '%' && c1.isDigit then
      match rest1 with
      | [] => [digitVal c1]
      | c2 :: _ =>
        if c2.isDigit then [10 * digitVal c1 + digitVal c2] else [digitVal c1]
    else []

def scanMarkers : List Char → List Nat
  | [] => []
  | c :: tail => markerHead c tail ++ scanMarkers tail

/-- Modelled from the Qt library: QString::arg(int) — substitute the argument
for the lowest-numbered place marker, or return the string unchanged when no
place marker is present. -/
def qstringArg (s : String) (n : Nat) : String :=
  match (scanMarkers s.data).min? with
  | none => s
  | some m => s.replace ("%" ++ toString m) (toString n)

/-- The do/while loop of CyberiadaSMModel::generateID with an explicit
iteration budget: rand k models the k-th qrand() call; the loop body forms
the candidate QString("id-%d").arg(num) and repeats while the identifier
index contains it.  none means the budget ran out, i.e. the loop had not
terminated within fuel iterations. -/
def generateIDLoop (rand : Nat → Nat) (m : SMMap) : Nat → Nat → Option String
  | _, 0 => none
  | k, fuel + 1 =>
    let num := rand k % 10000
    let s := qstringArg "id-%d" num
    if containsKey m s then generateIDLoop rand m (k + 1) fuel else some s

/-- Extensional behaviour of CyberiadaSMModel::generateID: the format string
"id-%d" contains no Qt place marker, so the candidate is the constant string
"id-%d" independent of the random number (qstringArg_id_const); the loop
exits after its first iteration when the index lacks that key and never
exits otherwise (generateIDLoop_const).  none models non-termination. -/
def generateID (m : SMMap) : Option String :=
  if containsKey m "id-%d" then none else some "id-%d"

/-- The suffix string of k underscore characters. -/
def underscores : Nat → String
  | 0 => ""
  | k + 1 => "_" ++ underscores k

/-- The while loop of CyberiadaSMModel::addToMap: append "_" to the candidate
key while the index contains it.  fuel bounds the iterations; addToMap
passes a budget large enough for the loop to terminate (resolveId_free). -/
def resolveId (m : SMMap) : String → Nat → String
  | id, 0 => id
  | id, fuel + 1 => if containsKey m id then resolveId m (id ++ "_") fuel else id

/-- The longest key length present in the index (used only to size the
iteration budget of resolveId; any candidate longer than every key is
certainly free). -/
def maxKeyLen (m : SMMap) : Nat :=
  m.foldr (fun p acc => max p.1.length acc) 0

/-- CyberiadaSMModel::addToMap: commit the item under id itself when id is
absent, otherwise under the first underscore-suffixed variant of id that is
absent, and insert. -/
def addToMap (m : SMMap) (id : String) (item : GItem) : SMMap :=
  (resolveId m id (maxKeyLen m + 2), item) :: m

theorem qstringArg_id_const (n : Nat) : qstringArg "id-%d" n = "id-%d" := rfl

theorem generateIDLoop_const (rand : Nat → Nat) (m : SMMap) :
    ∀ fuel k, generateIDLoop rand m k fuel =
      if containsKey m "id-%d" then
        (match fuel with
         | 0 => none
         | f + 1 => generateIDLoop rand m (k + 1) f)
      else (match fuel with | 0 => none | _ + 1 => some "id-%d")
  | 0, k => by cases h : containsKey m "id-%d" <;> simp [generateIDLoop]
  | fuel + 1, k => by
    cases h : containsKey m "id-%d" <;>
      simp [generateIDLoop, qstringArg_id_const, h]

theorem containsKey_cons (p : String × GItem) (m : SMMap) (k : String) :
    containsKey (p :: m) k = ((p.1 == k) || containsKey m k) := by
  simp [containsKey]

theorem containsKey_length_le (m : SMMap) (s : String)
    (h : containsKey m s = true) : s.length ≤ maxKeyLen m := by
  induction m with
  | nil => simp [containsKey] at h
  | cons p t ih =>
    rw [containsKey_cons] at h
    rcases Bool.or_eq_true_iff.mp h with h1 | h2
    · have hps : p.1 = s := by simpa using h1
      simp only [maxKeyLen, List.foldr_cons, hps]
      exact le_max_of_le_left le_rfl
    · have hle := ih h2
      simp only [maxKeyLen, List.foldr_cons]
      exact le_max_of_le_right hle

theorem underscores_length (k : Nat) : (underscores k).length = k := by
  induction k with
  | zero => rfl
  | succ k ih =>
    rw [underscores, String.length_append, ih, show "_".length = 1 from rfl]
    omega

theorem append_underscores_succ (id : String) (k : Nat) :
    id ++ underscores (k + 1) = (id ++ "_") ++ underscores k := by
  simp [underscores, ← String.append_assoc]

/-- With any budget that covers a free suffixed variant, the addToMap loop
returns the first free variant: the result is id with k underscores appended
where every shorter variant is present in the index and the result is not. -/
theorem resolveId_first_free :
    ∀ (fuel : Nat) (m : SMMap) (id : String),
      (∃ k < fuel, containsKey m (id ++ underscores k) = false) →
      ∃ k, resolveId m id fuel = id ++ underscores k
        ∧ containsKey m (id ++ underscores k) = false
        ∧ ∀ j < k, containsKey m (id ++ underscores j) = true
  | 0, _, _, h => by
    obtain ⟨k, hk, _⟩ := h
    exact absurd hk (Nat.not_lt_zero k)
  | fuel + 1, m, id, h => by
    cases hc : containsKey m id with
    | false =>
      refine ⟨0, ?_, ?_, ?_⟩
      · simp [resolveId, hc, underscores]
      · simpa [underscores] using hc
      · intro j hj; exact absurd hj (Nat.not_lt_zero j)
    | true =>
      obtain ⟨k, hk, hfree⟩ := h
      have hkpos : k ≠ 0 := by
        intro h0
        rw [h0] at hfree
        simp [underscores] at hfree
        rw [hfree] at hc
        exact Bool.false_ne_true hc
      obtain ⟨k0, rfl⟩ := Nat.exists_eq_succ_of_ne_zero hkpos
      have hk0 : k0 < fuel := Nat.lt_of_succ_lt_succ hk
      have hfree0 : containsKey m ((id ++ "_") ++ underscores k0) = false := by
        rwa [← append_underscores_succ]
      obtain ⟨k1, hres, hfr, hall⟩ :=
        resolveId_first_free fuel m (id ++ "_") ⟨k0, hk0, hfree0⟩
      refine ⟨k1 + 1, ?_, ?_, ?_⟩
      · simp [resolveId, hc, hres, append_underscores_succ]
      · rwa [append_underscores_succ]
      · intro j hj
        cases j with
        | zero => simpa [underscores] using hc
        | succ j0 =>
          rw [append_underscores_succ]
          exact hall j0 (Nat.lt_of_succ_lt_succ hj)

/-- A variant longer than every key of the index is free, so the budget
chosen by addToMap always covers a free variant. -/
theorem resolveId_free (m : SMMap) (id : String) :
    ∃ k < maxKeyLen m + 2, containsKey m (id ++ underscores k) = false := by
  refine ⟨maxKeyLen m + 1, by omega, ?_⟩
  cases hc : containsKey m (id ++ underscores (maxKeyLen m + 1)) with
  | false => rfl
  | true =>
    have := containsKey_length_le m _ hc
    rw [String.length_append, underscores_length] at this
    omega

theorem addToMap_committed (m : SMMap) (id : String) (item : GItem) :
    ∃ k, addToMap m id item = (id ++ underscores k, item) :: m
      ∧ containsKey m (id ++ underscores k) = false
      ∧ ∀ j < k, containsKey m (id ++ underscores j) = true := by
  obtain ⟨k, hres, hfr, hall⟩ :=
    resolveId_first_free (maxKeyLen m + 2) m id (resolveId_free m id)
  exact ⟨k, by simp [addToMap, hres], hfr, hall⟩

theorem addToMap_absent (m : SMMap) (id : String) (item : GItem)
    (h : containsKey m id = false) : addToMap m id item = (id, item) :: m := by
  simp [addToMap, resolveId, h]

theorem addToMap_mono (m : SMMap) (id k : String) (item : GItem)
    (h : containsKey m k = true) : containsKey (addToMap m id item) k = true := by
  simp [addToMap, containsKey_cons, h]

theorem addToMap_self (m : SMMap) (id : String) (item : GItem) :
    containsKey (addToMap m id item) id = true := by
  cases hc : containsKey m id with
  | true => simp [addToMap, containsKey_cons, hc]
  | false => simp [addToMap, resolveId, hc, containsKey_cons]

/-- Modelled from the spec: the placeholder title substituted for an empty
state title (CYBERIADA_EMPTY_NODE_TITLE of the missing constants header);
nothing below depends on its concrete value. -/
def CYBERIADA_EMPTY_NODE_TITLE : String := "unnamed state"

/-- Modelled from the spec: the default state-machine name used before a
document supplies one (SM_DEFAULT_TITLE of the missing constants header). -/
def SM_DEFAULT_TITLE : String := "State Machine"

/-- Modelled from the spec: the single fixed media-type tag of the drag
payload (CYBERIADA_MIME_TYPE_STATE of the missing constants header); the
claims depend only on it being one fixed string. -/
def CYBERIADA_MIME_TYPE_STATE : String := "application/x-cyberiada-sm-state"

/-- Geometry of an initial-state item: the source stores only the point
(geometry_rect.x, geometry_rect.y); the size is not carried. -/
def pointGeometry (r : CybRect) : StateGeometry :=
  ⟨⟨r.x, r.y⟩, ⟨0, 0⟩⟩

/-- Geometry of a state or comment item: position and size copied verbatim
from the node rectangle. -/
def rectGeometry (r : CybRect) : StateGeometry :=
  ⟨⟨r.x, r.y⟩, ⟨r.w, r.h⟩⟩

/-- Modelled from the Qt library: QString::trimmed — the string with
leading and trailing whitespace removed. -/
def qstringTrimmed (s : String) : String :=
  String.mk
    (((s.data.dropWhile Char.isWhitespace).reverse.dropWhile Char.isWhitespace).reverse)

/-- The two non-comment branches of CyberiadaSMModel::convertNode, which
read nothing from the model state: an initial node becomes an initial-state
item with point geometry; every other non-comment node becomes a state item
whose title falls back to the placeholder when empty and whose action text
is whitespace-trimmed. -/
def convertNodeShallow (ty : CybNodeType) (id title action : String)
    (rect : CybRect) : GItem :=
  match ty with
  | CybNodeType.cybNodeInitial =>
    GItem.mk ItemType.nodeInitialState id "" "" (pointGeometry rect) GItemList.nil
  | _ =>
    GItem.mk ItemType.nodeState id
      (if title = "" then CYBERIADA_EMPTY_NODE_TITLE else title)
      (qstringTrimmed action) (rectGeometry rect) GItemList.nil

/-- CyberiadaSMModel::convertNode: construct the (still childless) item for
one document node.  A comment node draws a generated identifier from the
index and stores the node action text untrimmed as its free text (the title
slot here; the declared node identifier and title are dropped by the
source); none propagates non-termination of the identifier generation. -/
def convertNodeCore (m : SMMap) : CyberiadaNode → Option GItem
  | CyberiadaNode.mk ty id title action rect _ =>
    match ty with
    | CybNodeType.cybNodeComment =>
      (generateID m).map (fun gid =>
        GItem.mk ItemType.nodeComment gid action "" (rectGeometry rect) GItemList.nil)
    | t => some (convertNodeShallow t id title action rect)

mutual
/-- The non-top-level work of CyberiadaSMModel::addChildNodes for one node:
convert it, register the still childless item in the index (addToMap runs
before the children are attached), then recurse into the node children with
the new item as parent; the returned item carries the attached children. -/
def addNode (m : SMMap) : CyberiadaNode → Option (SMMap × GItem)
  | CyberiadaNode.mk ty id title action rect cs => do
    let item0 ← convertNodeCore m (CyberiadaNode.mk ty id title action rect cs)
    let m1 := addToMap m item0.idOf item0
    let (m2, kids) ← addNodes m1 cs
    some (m2, item0.withChildren kids)
/-- The non-top-level loop of addChildNodes over a sibling list. -/
def addNodes (m : SMMap) : CyberiadaNodeList → Option (SMMap × GItemList)
  | CyberiadaNodeList.nil => some (m, GItemList.nil)
  | CyberiadaNodeList.cons n t => do
    let (m1, i) ← addNode m n
    let (m2, is) ← addNodes m1 t
    some (m2, GItemList.cons i is)
end

/-- Concatenation of item child sequences. -/
def appendG : GItemList → GItemList → GItemList
  | GItemList.nil, b => b
  | GItemList.cons i t, b => GItemList.cons i (appendG t b)

/-- The top-level branch of CyberiadaSMModel::addChildNodes: each top-level
node is converted (the source drops the resulting item: it is neither
registered nor attached), and its children are then converted in the
non-top-level mode, hoisted directly under the states aggregation. -/
def addTopNodes (m : SMMap) : CyberiadaNodeList → Option (SMMap × GItemList)
  | CyberiadaNodeList.nil => some (m, GItemList.nil)
  | CyberiadaNodeList.cons (CyberiadaNode.mk ty id title action rect cs) t => do
    let _ ← convertNodeCore m (CyberiadaNode.mk ty id title action rect cs)
    let (m1, is1) ← addNodes m cs
    let (m2, is2) ← addTopNodes m1 t
    some (m2, appendG is1 is2)

/-- An edge of the parsed document (CyberiadaEdge): identifier, action text,
the declared source and target node identifiers, and the geometry. -/
structure CyberiadaEdge where
  edgeId : String
  action : String
  sourceId : String
  targetId : String
  source_point : CybPoint
  target_point : CybPoint
  polyline : List CybPoint
deriving DecidableEq, Repr

/-- Geometry of a transition item (CyberiadaTransitionGeometry). -/
structure TransGeometry where
  source_port : CybPoint
  target_port : CybPoint
  path : List CybPoint
deriving DecidableEq, Repr

/-- Modelled from the spec: a transition item (CyberiadaTransitionItem of
the missing item header) holding two non-owning references to its resolved
endpoint items, the edge identifier, the trimmed action text and the
geometry. -/
structure TransItem where
  source : GItem
  target : GItem
  transId : String
  action : String
  geom : TransGeometry

/-- CyberiadaSMModel::convertEdge: copy the geometry, resolve both declared
endpoint identifiers in the index, fail (NULL) when either lookup misses,
otherwise build the transition item. -/
def convertEdge (m : SMMap) (e : CyberiadaEdge) : Option TransItem :=
  let g : TransGeometry := ⟨e.source_point, e.target_point, e.polyline⟩
  match mapValue m e.sourceId, mapValue m e.targetId with
  | some s, some t => some ⟨s, t, e.edgeId, qstringTrimmed e.action, g⟩
  | _, _ => none

/-- The parsed document (CyberiadaSM): format version, state-machine name,
top-level node list and flat edge list. -/
structure CyberiadaSM where
  version : String
  name : String
  nodes : CyberiadaNodeList
  edges : List CyberiadaEdge

/-- The observable state of CyberiadaSMModel: the state-machine name and
version, the state-machine root item title, the child sequences of the
states aggregation and of the transitions aggregation, and the identifier
index. -/
structure SMModelState where
  sm_name : String
  sm_version : String
  sm_root_title : String
  states_children : GItemList
  trans_children : List TransItem
  states_map : SMMap

/-- The state after CyberiadaSMModel::reset: both aggregations empty, index
cleared, default state-machine title. -/
def resetState : SMModelState :=
  ⟨SM_DEFAULT_TITLE, "", SM_DEFAULT_TITLE, GItemList.nil, [], []⟩

/-- CyberiadaSMModel::renameSM: the name is taken over only when non-empty;
the state-machine root item title is renamed in lockstep. -/
def renameSM (st : SMModelState) (new_name : String) : SMModelState :=
  if new_name.length > 0 then
    { st with sm_name := new_name, sm_root_title := new_name }
  else st

/-- The edge loop of CyberiadaSMModel::loadGraph: convert the edges in
order, appending each transition under the transitions aggregation; on the
first failing edge the function returns immediately, keeping the state
built so far (there is no rollback in the source). -/
def processEdges (m : SMMap) (st : SMModelState) : List CyberiadaEdge → SMModelState
  | [] => st
  | e :: rest =>
    match convertEdge m e with
    | none => st
    | some t => processEdges m { st with trans_children := st.trans_children ++ [t] } rest

/-- CyberiadaSMModel::loadGraph: reset, then parse (none models a parser
failure, after which the function returns with the freshly reset state),
record version and name, convert the node forest in top-level mode and then
process the edge list.  The outer none models non-termination of identifier
generation inside the conversion. -/
def loadGraph (doc : Option CyberiadaSM) : Option SMModelState :=
  match doc with
  | none => some resetState
  | some sm =>
    let st0 := renameSM { resetState with sm_version := sm.version } sm.name
    match addTopNodes [] sm.nodes with
    | none => none
    | some (m, items) =>
      some (processEdges m
        { st0 with states_children := items, states_map := m } sm.edges)

/-- The data roles setData discriminates. -/
inductive QtRole where
  | displayRole
  | editRole
  | decorationRole
  | toolTipRole
  | otherRole
deriving DecidableEq, Repr

/-- The test index == SMIndex() of the source: SMIndex() is (0, 0, sm_root)
and sm_root is the unique item of category nodeSM, whose index is always
created at row 0, column 0; so within reachable indexes the comparison
reduces to the internal item being of category nodeSM (on a valid index). -/
def isSMIndexB (valid : Bool) (t : ItemType) : Bool :=
  valid && (t == ItemType.nodeSM)

/-- CyberiadaSMModel::isStateIndex on the (validity, category) view of an
index. -/
def isStateIndexB (valid : Bool) (t : ItemType) : Bool :=
  valid && (t == ItemType.nodeState)

/-- CyberiadaSMModel::isInitialStateIndex on the (validity, category) view. -/
def isInitialStateIndexB (valid : Bool) (t : ItemType) : Bool :=
  valid && (t == ItemType.nodeInitialState)

/-- CyberiadaSMModel::isActionIndex on the (validity, category) view. -/
def isActionIndexB (valid : Bool) (t : ItemType) : Bool :=
  valid && (t == ItemType.nodeAction)

/-- CyberiadaSMModel::setData on the observable view of the model index:
validity flag, column, the category and title of the item behind the
internal pointer, the role and the new value.  Returns the success flag and
the item title after the call; the function never throws. -/
def setData (valid : Bool) (column : Int) (t : ItemType) (title : String)
    (role : QtRole) (value : String) : Bool × String :=
  if valid && (role == QtRole.editRole) && (column == 0)
      && (isSMIndexB valid t || isStateIndexB valid t || isActionIndexB valid t) then
    if !(isActionIndexB valid t) && (value == "") then (false, title)
    else (true, value)
  else (false, title)

/-- A tree item as the navigation functions observe it: a category tag and
the ordered child sequence (the CyberiadaAbstractItem interface of the
missing item header). -/
inductive AbsItem where
  | mk : ItemType → List AbsItem → AbsItem

def AbsItem.childCount : AbsItem → Int
  | AbsItem.mk _ cs => (cs.length : Int)

def AbsItem.childrenOf : AbsItem → List AbsItem
  | AbsItem.mk _ cs => cs

/-- Modelled from the spec: CyberiadaAbstractItem::child(row) — the row-th
owned child, absent when the row is out of range. -/
def AbsItem.childAt : AbsItem → Int → Option AbsItem
  | AbsItem.mk _ cs, r => if r < 0 then none else cs.get? r.toNat

/-- CyberiadaSMModel::hasIndex: a QModelIndex is modelled as
Option (row × column × item), none being the invalid index.  Columns
greater than 0 are rejected; an invalid parent admits exactly row 0 (the
synthetic root); a valid parent admits rows inside its child range. -/
def hasIndex (row column : Int) (parent : Option (Int × Int × AbsItem)) : Bool :=
  if column > 0 then false
  else
    match parent with
    | none => row == 0
    | some (_, _, p) =>
      if p.childCount > 0 then decide (0 ≤ row) && decide (row < p.childCount)
      else false

/-- CyberiadaSMModel::index: an invalid parent, or a (row, column) rejected
by hasIndex, yields the invalid index; otherwise createIndex(row, column,
parentItem->child(row)). -/
def modelIndex (row column : Int) (parent : Option (Int × Int × AbsItem)) :
    Option (Int × Int × AbsItem) :=
  match parent with
  | none => none
  | some (pr, pc, p) =>
    if hasIndex row column (some (pr, pc, p)) then
      (p.childAt row).map (fun c => (row, column, c))
    else none

/-- CyberiadaSMModel::mimeTypes: the single supported media-type tag. -/
def mimeTypes : List String := [CYBERIADA_MIME_TYPE_STATE]

/-- A model index as the mimeData loop observes it. -/
structure MimeIndex where
  valid : Bool
  column : Int
  itemType : ItemType
  itemId : String
deriving DecidableEq, Repr

/-- The foreach loop of CyberiadaSMModel::mimeData: skip indexes whose
column differs from 0, skip indexes that are neither state nor
initial-state, and stream the identifiers of the remaining items in order. -/
def mimeEncode : List MimeIndex → List String
  | [] => []
  | i :: rest =>
    if i.column != 0 then mimeEncode rest
    else if !(isStateIndexB i.valid i.itemType)
        && !(isInitialStateIndexB i.valid i.itemType) then mimeEncode rest
    else i.itemId :: mimeEncode rest

/-- CyberiadaSMModel::mimeData: the payload is the fixed media-type tag
together with the encoded identifier list. -/
def mimeData (indexes : List MimeIndex) : String × List String :=
  (CYBERIADA_MIME_TYPE_STATE, mimeEncode indexes)

/-- CyberiadaSMModel::move: the entire function body is commented out in
the source, so the compiled function mutates nothing whatever its
arguments are. -/
def moveItem (st : SMModelState) (_item _target : GItem) : SMModelState := st

/-- Concatenation of sibling node lists. -/
def appendN : CyberiadaNodeList → CyberiadaNodeList → CyberiadaNodeList
  | CyberiadaNodeList.nil, b => b
  | CyberiadaNodeList.cons n t, b => CyberiadaNodeList.cons n (appendN t b)

/-- The node forest obtained by dropping the top-level nodes and
concatenating their child lists — the forest the converter actually attaches
under the states aggregation. -/
def hoistChildren : CyberiadaNodeList → CyberiadaNodeList
  | CyberiadaNodeList.nil => CyberiadaNodeList.nil
  | CyberiadaNodeList.cons (CyberiadaNode.mk _ _ _ _ _ cs) t =>
    appendN cs (hoistChildren t)

mutual
/-- Number of nodes of a node tree (the node itself and all descendants). -/
def nodeCount : CyberiadaNode → Nat
  | CyberiadaNode.mk _ _ _ _ _ cs => 1 + forestCount cs
/-- Number of nodes of a node forest. -/
def forestCount : CyberiadaNodeList → Nat
  | CyberiadaNodeList.nil => 0
  | CyberiadaNodeList.cons n t => nodeCount n + forestCount t
end

mutual
/-- All declared identifiers of a node tree, the node itself included. -/
def nodeIds : CyberiadaNode → List String
  | CyberiadaNode.mk _ id _ _ _ cs => id :: forestIds cs
/-- All declared identifiers of a node forest. -/
def forestIds : CyberiadaNodeList → List String
  | CyberiadaNodeList.nil => []
  | CyberiadaNodeList.cons n t => nodeIds n ++ forestIds t
end

/-- The declared identifiers of the non-top-level nodes of a document. -/
def nonTopIds (ns : CyberiadaNodeList) : List String :=
  forestIds (hoistChildren ns)

mutual
/-- True when no node of the tree is a comment node. -/
def nodeNoComments : CyberiadaNode → Bool
  | CyberiadaNode.mk ty _ _ _ _ cs =>
    (ty != CybNodeType.cybNodeComment) && forestNoComments cs
/-- True when no node of the forest is a comment node. -/
def forestNoComments : CyberiadaNodeList → Bool
  | CyberiadaNodeList.nil => true
  | CyberiadaNodeList.cons n t => nodeNoComments n && forestNoComments t
end

mutual
/-- Number of items of an item tree (the item itself and all descendants). -/
def itemCount : GItem → Nat
  | GItem.mk _ _ _ _ _ cs => 1 + itemsCount cs
/-- Number of items of an item child sequence. -/
def itemsCount : GItemList → Nat
  | GItemList.nil => 0
  | GItemList.cons i t => itemCount i + itemsCount t
end

mutual
/-- The pure image of the conversion of one comment-free node: the item
convertNodeCore builds, with the recursively converted children attached.
For a comment node this function still produces the only identifier that
generateID can ever yield, but the conversion lemmas are stated for
comment-free forests only. -/
def pureNode : CyberiadaNode → GItem
  | CyberiadaNode.mk ty id title action rect cs =>
    GItem.withChildren (convertNodeShallow ty id title action rect) (pureForest cs)
/-- The pure image of the conversion of a comment-free node forest. -/
def pureForest : CyberiadaNodeList → GItemList
  | CyberiadaNodeList.nil => GItemList.nil
  | CyberiadaNodeList.cons n t => GItemList.cons (pureNode n) (pureForest t)
end

theorem appendG_assoc : ∀ (a : GItemList) (b c : GItemList),
    appendG (appendG a b) c = appendG a (appendG b c)
  | GItemList.nil, _, _ => rfl
  | GItemList.cons i t, b, c => by simp [appendG, appendG_assoc t b c]

theorem pureForest_append : ∀ (a b : CyberiadaNodeList),
    pureForest (appendN a b) = appendG (pureForest a) (pureForest b)
  | CyberiadaNodeList.nil, _ => rfl
  | CyberiadaNodeList.cons n t, b => by
    simp [appendN, pureForest, appendG, pureForest_append t b]

theorem forestIds_append : ∀ (a b : CyberiadaNodeList),
    forestIds (appendN a b) = forestIds a ++ forestIds b
  | CyberiadaNodeList.nil, _ => rfl
  | CyberiadaNodeList.cons n t, b => by
    simp [appendN, forestIds, forestIds_append t b]

theorem forestCount_append : ∀ (a b : CyberiadaNodeList),
    forestCount (appendN a b) = forestCount a + forestCount b
  | CyberiadaNodeList.nil, _ => by simp [appendN, forestCount]
  | CyberiadaNodeList.cons n t, b => by
    simp [appendN, forestCount, forestCount_append t b]
    omega

theorem itemsCount_append : ∀ (a b : GItemList),
    itemsCount (appendG a b) = itemsCount a + itemsCount b
  | GItemList.nil, _ => by simp [appendG, itemsCount]
  | GItemList.cons i t, b => by
    simp [appendG, itemsCount, itemsCount_append t b]
    omega

mutual
theorem itemCount_pureNode : ∀ n : CyberiadaNode, itemCount (pureNode n) = nodeCount n
  | CyberiadaNode.mk ty id title action rect cs => by
    have h := itemsCount_pureForest cs
    cases ty <;>
      simp [pureNode, convertNodeShallow, GItem.withChildren, itemCount, nodeCount, h]
theorem itemsCount_pureForest : ∀ ns : CyberiadaNodeList,
    itemsCount (pureForest ns) = forestCount ns
  | CyberiadaNodeList.nil => rfl
  | CyberiadaNodeList.cons n t => by
    simp [pureForest, forestCount, itemsCount, itemCount_pureNode n, itemsCount_pureForest t]
end

theorem convertNodeCore_noComment (m : SMMap) (ty : CybNodeType)
    (id title action : String) (rect : CybRect) (cs : CyberiadaNodeList)
    (h : ty ≠ CybNodeType.cybNodeComment) :
    convertNodeCore m (CyberiadaNode.mk ty id title action rect cs) =
      some (convertNodeShallow ty id title action rect) := by
  cases ty with
  | cybNodeComment => exact absurd rfl h
  | cybNodeInitial => rfl
  | cybNodeOther => rfl

theorem convertNodeShallow_id (ty : CybNodeType) (id title action : String)
    (rect : CybRect) (h : ty ≠ CybNodeType.cybNodeComment) :
    (convertNodeShallow ty id title action rect).idOf = id := by
  cases ty with
  | cybNodeComment => exact absurd rfl h
  | cybNodeInitial => rfl
  | cybNodeOther => rfl

mutual
/-- On a comment-free node the converter succeeds, produces the pure image,
only grows the index, and registers every declared identifier of the
subtree. -/
theorem addNode_noComments : ∀ (n : CyberiadaNode) (m : SMMap),
    nodeNoComments n = true →
    ∃ m2, addNode m n = some (m2, pureNode n)
      ∧ (∀ k, containsKey m k = true → containsKey m2 k = true)
      ∧ (∀ i ∈ nodeIds n, containsKey m2 i = true)
  | CyberiadaNode.mk ty id title action rect cs, m, h => by
    rw [nodeNoComments, Bool.and_eq_true] at h
    obtain ⟨hty, hcs⟩ := h
    have hty2 : ty ≠ CybNodeType.cybNodeComment := by
      simpa using hty
    have hcore := convertNodeCore_noComment m ty id title action rect cs hty2
    have hid := convertNodeShallow_id ty id title action rect hty2
    obtain ⟨m2, heq, hmono, hids⟩ :=
      addNodes_noComments cs (addToMap m id (convertNodeShallow ty id title action rect)) hcs
    refine ⟨m2, ?_, ?_, ?_⟩
    · simp [addNode, hcore, hid, heq, pureNode]
    · intro k hk
      exact hmono k (addToMap_mono m id k _ hk)
    · intro i hi
      rw [nodeIds] at hi
      rcases List.mem_cons.mp hi with rfl | hi2
      · exact hmono i (addToMap_self m i _)
      · exact hids i hi2
/-- On a comment-free forest the converter succeeds, produces the pure
image, only grows the index, and registers every declared identifier. -/
theorem addNodes_noComments : ∀ (ns : CyberiadaNodeList) (m : SMMap),
    forestNoComments ns = true →
    ∃ m2, addNodes m ns = some (m2, pureForest ns)
      ∧ (∀ k, containsKey m k = true → containsKey m2 k = true)
      ∧ (∀ i ∈ forestIds ns, containsKey m2 i = true)
  | CyberiadaNodeList.nil, m, _ =>
    ⟨m, rfl, fun _ hk => hk, fun i hi => by simp [forestIds] at hi⟩
  | CyberiadaNodeList.cons n t, m, h => by
    rw [forestNoComments, Bool.and_eq_true] at h
    obtain ⟨hn, ht⟩ := h
    obtain ⟨m1, heq1, hmono1, hids1⟩ := addNode_noComments n m hn
    obtain ⟨m2, heq2, hmono2, hids2⟩ := addNodes_noComments t m1 ht
    refine ⟨m2, ?_, ?_, ?_⟩
    · simp [addNodes, heq1, heq2, pureForest]
    · intro k hk
      exact hmono2 k (hmono1 k hk)
    · intro i hi
      rw [forestIds, List.mem_append] at hi
      rcases hi with hi1 | hi2
      · exact hmono2 i (hids1 i hi1)
      · exact hids2 i hi2
end

/-- On a comment-free document forest the top-level conversion succeeds,
attaches exactly the pure images of the hoisted children, only grows the
index, and registers every non-top-level declared identifier. -/
theorem addTopNodes_noComments : ∀ (ns : CyberiadaNodeList) (m : SMMap),
    forestNoComments ns = true →
    ∃ m2, addTopNodes m ns = some (m2, pureForest (hoistChildren ns))
      ∧ (∀ k, containsKey m k = true → containsKey m2 k = true)
      ∧ (∀ i ∈ nonTopIds ns, containsKey m2 i = true)
  | CyberiadaNodeList.nil, m, _ =>
    ⟨m, rfl, fun _ hk => hk, fun i hi => by simp [nonTopIds, hoistChildren, forestIds] at hi⟩
  | CyberiadaNodeList.cons (CyberiadaNode.mk ty id title action rect cs) t, m, h => by
    rw [forestNoComments, Bool.and_eq_true] at h
    obtain ⟨hn, ht⟩ := h
    rw [nodeNoComments, Bool.and_eq_true] at hn
    obtain ⟨hty, hcs⟩ := hn
    have hty2 : ty ≠ CybNodeType.cybNodeComment := by simpa using hty
    have hcore := convertNodeCore_noComment m ty id title action rect cs hty2
    obtain ⟨m1, heq1, hmono1, hids1⟩ := addNodes_noComments cs m hcs
    obtain ⟨m2, heq2, hmono2, hids2⟩ := addTopNodes_noComments t m1 ht
    refine ⟨m2, ?_, ?_, ?_⟩
    · simp [addTopNodes, hcore, heq1, heq2, hoistChildren, pureForest_append]
    · intro k hk
      exact hmono2 k (hmono1 k hk)
    · intro i hi
      rw [nonTopIds, hoistChildren, forestIds_append, List.mem_append] at hi
      rcases hi with hi1 | hi2
      · exact hmono2 i (hids1 i hi1)
      · exact hids2 i hi2

theorem containsKey_iff_mapValue (m : SMMap) (k : String) :
    containsKey m k = true ↔ (mapValue m k).isSome = true := by
  induction m with
  | nil => simp [containsKey, mapValue]
  | cons p t ih =>
    rw [containsKey_cons]
    cases hp : (p.1 == k) with
    | true => simp [mapValue, List.find?, hp]
    | false => simpa [mapValue, List.find?, hp] using ih

theorem convertEdge_isSome (m : SMMap) (e : CyberiadaEdge)
    (hs : containsKey m e.sourceId = true) (ht : containsKey m e.targetId = true) :
    (convertEdge m e).isSome = true := by
  have hs2 := (containsKey_iff_mapValue m e.sourceId).mp hs
  have ht2 := (containsKey_iff_mapValue m e.targetId).mp ht
  obtain ⟨s, hsv⟩ := Option.isSome_iff_exists.mp hs2
  obtain ⟨t, htv⟩ := Option.isSome_iff_exists.mp ht2
  simp [convertEdge, hsv, htv]

theorem convertEdge_endpoints (m : SMMap) (e : CyberiadaEdge) (tr : TransItem)
    (h : convertEdge m e = some tr) :
    mapValue m e.sourceId = some tr.source ∧ mapValue m e.targetId = some tr.target := by
  rw [convertEdge] at h
  cases hsv : mapValue m e.sourceId with
  | none => rw [hsv] at h; simp at h
  | some s =>
    cases htv : mapValue m e.targetId with
    | none => rw [hsv, htv] at h; simp at h
    | some t =>
      rw [hsv, htv] at h
      simp at h
      exact ⟨by rw [← h], by rw [← h]⟩

/-- When every edge of the list converts, the edge loop appends exactly one
transition per edge, in order, and touches no other field of the state. -/
theorem processEdges_all : ∀ (edges : List CyberiadaEdge) (m : SMMap) (st : SMModelState),
    (∀ e ∈ edges, (convertEdge m e).isSome = true) →
    ∃ ts, processEdges m st edges = { st with trans_children := st.trans_children ++ ts }
      ∧ List.Forall₂ (fun e t => convertEdge m e = some t) edges ts
  | [], m, st, _ => ⟨[], by simp [processEdges], List.Forall₂.nil⟩
  | e :: rest, m, st, h => by
    have he := h e (List.mem_cons_self e rest)
    obtain ⟨tr, htr⟩ := Option.isSome_iff_exists.mp he
    have hrest : ∀ e2 ∈ rest, (convertEdge m e2).isSome = true :=
      fun e2 h2 => h e2 (List.mem_cons_of_mem e h2)
    obtain ⟨ts, heq, hall⟩ :=
      processEdges_all rest m { st with trans_children := st.trans_children ++ [tr] } hrest
    refine ⟨tr :: ts, ?_, List.Forall₂.cons htr hall⟩
    simp [processEdges, htr, heq]

/-- The edge loop stops at the first failing edge, keeping the state built
so far: the transitions of the preceding edges are appended, the failing
edge and everything after it are dropped, and no other field changes. -/
theorem processEdges_stops_at_failure : ∀ (pre : List CyberiadaEdge) (bad : CyberiadaEdge)
    (post : List CyberiadaEdge) (m : SMMap) (st : SMModelState),
    (∀ e ∈ pre, (convertEdge m e).isSome = true) →
    convertEdge m bad = none →
    processEdges m st (pre ++ bad :: post) =
      { st with trans_children := st.trans_children ++ pre.filterMap (fun e => convertEdge m e) }
  | [], bad, post, m, st, _, hbad => by
    simp [processEdges, hbad]
  | e :: rest, bad, post, m, st, hpre, hbad => by
    have he := hpre e (List.mem_cons_self e rest)
    obtain ⟨tr, htr⟩ := Option.isSome_iff_exists.mp he
    have hrest : ∀ e2 ∈ rest, (convertEdge m e2).isSome = true :=
      fun e2 h2 => hpre e2 (List.mem_cons_of_mem e h2)
    have ih := processEdges_stops_at_failure rest bad post m
      { st with trans_children := st.trans_children ++ [tr] } hrest hbad
    simp [processEdges, htr, ih, List.filterMap_cons, htr]

/-- C2: the move operation is a stub in the source — its entire body is
commented out — so for every item and target the model state is completely
unchanged.  The claimed contract (no-op on the current owner, and
detach/renumber/append for a different valid owner) is therefore not
implemented: only its no-op half coincides with the actual behaviour, and a
move to a different owner changes nothing instead of reparenting. -/
theorem move_is_noop_stub (st : SMModelState) (item target : GItem) :
    moveItem st item target = st ∧ (moveItem st item target).states_children = st.states_children :=
  ⟨rfl, rfl⟩

/-- C4: once the identifier index contains the key "id-%d", generateID
never terminates, whatever the random stream and whatever iteration budget
is allowed: the candidate QString("id-%d").arg(num) is the constant string
"id-%d" because the printf-style %d is not a Qt place marker
(qstringArg_id_const), so every iteration retries the same taken key.  The
claim — generate() terminates with a fresh identifier for every index
state — states the evident intent; the format string is a slip ("%d"
instead of a Qt "%1"). -/
theorem generateID_diverges_on_collision (m : SMMap)
    (h : containsKey m "id-%d" = true) (rand : Nat → Nat) :
    ∀ fuel k, generateIDLoop rand m k fuel = none := by
  intro fuel
  induction fuel with
  | zero => intro k; rfl
  | succ f ih =>
    intro k
    rw [generateIDLoop_const]
    simp only [h, if_true]
    exact ih (k + 1)

def dummyComment : GItem :=
  GItem.mk ItemType.nodeComment "id-%d" "" "" ⟨⟨0, 0⟩, ⟨0, 0⟩⟩ GItemList.nil

/-- C4 witness: with the index holding the key "id-%d" — the state after
the first comment item has been registered — the loop produces no
identifier within any budget; instantiated at budget 50 on the zero random
stream. -/
theorem generateID_diverges_on_collision_witness :
    containsKey [("id-%d", dummyComment)] "id-%d" = true
      ∧ generateIDLoop (fun _ => 0) [("id-%d", dummyComment)] 0 50 = none :=
  ⟨rfl, generateID_diverges_on_collision [("id-%d", dummyComment)] rfl (fun _ => 0) 50 0⟩

/-- C3 counterexample: on a valid comment item at column 0 in the edit
role, rename is rejected and the title stays unchanged — for empty and for
non-empty text alike — while the claim asserts that a comment item is
renameable and accepts empty text.  The setData gate admits only the
state-machine root, state and action categories; nodeComment is not among
them. -/
theorem setData_comment_rejected_cex :
    setData true 0 ItemType.nodeComment "note" QtRole.editRole "" = (false, "note")
      ∧ setData true 0 ItemType.nodeComment "note" QtRole.editRole "x" = (false, "note") :=
  ⟨rfl, rfl⟩

/-- C3 (amended): rename succeeds exactly on a valid index at column 0 in
the edit role whose item is the state-machine root, a state or an action
item, and empty text is refused unless the item is an action item; the
title after the call is the new value exactly on success and is unchanged
on every rejection (setData is total — no exception).  Comment items are
not renameable at all: their category is outside the gate. -/
theorem setData_rename_characterization (valid : Bool) (column : Int)
    (t : ItemType) (title : String) (role : QtRole) (value : String) :
    (setData valid column t title role value).1 =
      (valid && (role == QtRole.editRole) && (column == 0)
        && (t == ItemType.nodeSM || t == ItemType.nodeState || t == ItemType.nodeAction)
        && (t == ItemType.nodeAction || !(value == "")))
    ∧ (setData valid column t title role value).2 =
        (if (setData valid column t title role value).1 = true then value else title) := by
  unfold setData isSMIndexB isStateIndexB isActionIndexB
  cases valid <;> cases t <;>
    cases hv : (value == "") <;>
    cases hr : (role == QtRole.editRole) <;>
    cases hc : (column == 0) <;>
    simp [hv, hr, hc]

/-- C8 counterexample: the address (row 0, column -1, no parent) is
reported valid although its column is not 0 — the source rejects only
positive columns (column > 0), not every non-zero column as the claim
states. -/
theorem hasIndex_negative_column_cex :
    hasIndex 0 (-1) none = true ∧ ((-1 : Int) == 0) = false :=
  ⟨rfl, rfl⟩

/-- C8 (amended): the validity predicate holds exactly when the column is
not positive and either the parent is absent with row 0 (the synthetic
root) or the row lies within the half-open child range of the parent item.
Positive columns are always rejected, but — contrary to the claim — the
check is column > 0, so negative columns pass. -/
theorem hasIndex_characterization (row column : Int)
    (parent : Option (Int × Int × AbsItem)) :
    hasIndex row column parent = true ↔
      column ≤ 0 ∧ ((parent = none ∧ row = 0)
        ∨ ∃ pr pc p, parent = some (pr, pc, p) ∧ 0 ≤ row ∧ row < p.childCount) := by
  unfold hasIndex
  by_cases hcol : column > 0
  · rw [if_pos hcol]
    constructor
    · intro h
      exact absurd h (by simp)
    · rintro ⟨h, -⟩
      omega
  · rw [if_neg hcol]
    cases parent with
    | none =>
      constructor
      · intro h
        exact ⟨by omega, Or.inl ⟨rfl, by rwa [beq_iff_eq] at h⟩⟩
      · rintro ⟨-, ⟨-, h0⟩ | ⟨pr, pc, p, hp, -⟩⟩
        · rw [beq_iff_eq]
          exact h0
        · exact Option.noConfusion hp
    | some x =>
      obtain ⟨pr, pc, p⟩ := x
      dsimp only
      by_cases hcc : p.childCount > 0
      · rw [if_pos hcc]
        constructor
        · intro h
          rw [Bool.and_eq_true, decide_eq_true_eq, decide_eq_true_eq] at h
          exact ⟨by omega, Or.inr ⟨pr, pc, p, rfl, h.1, h.2⟩⟩
        · rintro ⟨-, ⟨hnone, -⟩ | ⟨pr2, pc2, p2, hp, h1, h2⟩⟩
          · exact Option.noConfusion hnone
          · rw [Option.some.injEq, Prod.mk.injEq, Prod.mk.injEq] at hp
            obtain ⟨-, -, hpe⟩ := hp
            subst hpe
            rw [Bool.and_eq_true, decide_eq_true_eq, decide_eq_true_eq]
            exact ⟨h1, h2⟩
      · rw [if_neg hcc]
        constructor
        · intro h
          exact absurd h (by simp)
        · rintro ⟨-, ⟨hnone, -⟩ | ⟨pr2, pc2, p2, hp, h1, h2⟩⟩
          · exact Option.noConfusion hnone
          · rw [Option.some.injEq, Prod.mk.injEq, Prod.mk.injEq] at hp
            obtain ⟨-, -, hpe⟩ := hp
            subst hpe
            omega

theorem mimeEncode_eq_filter (l : List MimeIndex) :
    mimeEncode l =
      (l.filter (fun i => (i.column == 0)
        && (isStateIndexB i.valid i.itemType
          || isInitialStateIndexB i.valid i.itemType))).map MimeIndex.itemId := by
  induction l with
  | nil => rfl
  | cons i rest ih =>
    cases hc : (i.column == 0) <;>
      cases hA : isStateIndexB i.valid i.itemType <;>
      cases hB : isInitialStateIndexB i.valid i.itemType <;>
      simp [mimeEncode, List.filter_cons, bne, hc, hA, hB, ih]

/-- C9: payload serialization keeps exactly the addresses with column 0
whose items are of state or initial-state category, encodes their
identifiers in the order of the input list, and tags the payload with the
single fixed media-type string — the one element mimeTypes advertises. -/
theorem mimeData_filters_draggable (indexes : List MimeIndex) :
    mimeData indexes =
      (CYBERIADA_MIME_TYPE_STATE,
        (indexes.filter (fun i => (i.column == 0)
          && (isStateIndexB i.valid i.itemType
            || isInitialStateIndexB i.valid i.itemType))).map MimeIndex.itemId)
    ∧ mimeTypes = [CYBERIADA_MIME_TYPE_STATE] := by
  refine ⟨?_, rfl⟩
  unfold mimeData
  rw [mimeEncode_eq_filter]

/-- C10: index construction returns the invalid index whenever the given
parent address is invalid — including at row 0, column 0, where the
validity predicate itself reports a valid synthetic-root address — and
every index it does return holds a child of the passed parent item; the
synthetic root, which is the child of no item, is therefore reachable only
through the dedicated rootIndex accessor (createIndex(0, 0, root)), never
through index(). -/
theorem index_rejects_invalid_parent :
    (∀ row column : Int, modelIndex row column none = none)
    ∧ hasIndex 0 0 none = true
    ∧ (∀ (row column pr pc : Int) (p : AbsItem) (res : Int × Int × AbsItem),
        modelIndex row column (some (pr, pc, p)) = some res →
        res.2.2 ∈ p.childrenOf) := by
  refine ⟨fun _ _ => rfl, rfl, ?_⟩
  intro row column pr pc p res h
  unfold modelIndex at h
  dsimp only at h
  by_cases hh : hasIndex row column (some (pr, pc, p)) = true
  · rw [if_pos hh] at h
    cases p with
    | mk t cs =>
      unfold AbsItem.childAt at h
      dsimp only at h
      by_cases hneg : row < 0
      · rw [if_pos hneg] at h
        exact absurd h (by simp)
      · rw [if_neg hneg] at h
        cases hg : cs.get? row.toNat with
        | none =>
          rw [hg] at h
          exact absurd h (by simp)
        | some c =>
          rw [hg] at h
          have hc : res = (row, column, c) := by
            simpa using h.symm
          have hmem : c ∈ cs := List.get?_mem hg
          rw [hc]
          exact hmem
  · rw [if_neg hh] at h
    exact absurd h (by simp)

def leafState : AbsItem := AbsItem.mk ItemType.nodeState []

def aggrParent : AbsItem := AbsItem.mk ItemType.nodeStatesAggr [leafState]

/-- C10 witness: at the concrete parent item holding one child, index(0, 0)
returns precisely that child, and the child is a member of the parent's
child sequence by the theorem. -/
theorem index_rejects_invalid_parent_witness :
    leafState ∈ aggrParent.childrenOf :=
  index_rejects_invalid_parent.2.2 0 0 0 0 aggrParent (0, 0, leafState) rfl

theorem containsKey_iff_mem (m : SMMap) (k : String) :
    containsKey m k = true ↔ k ∈ m.map Prod.fst := by
  rw [containsKey, List.any_eq_true]
  constructor
  · rintro ⟨p, hp, hb⟩
    exact List.mem_map.mpr ⟨p, hp, by simpa using hb⟩
  · intro h
    obtain ⟨p, hp, he⟩ := List.mem_map.mp h
    exact ⟨p, hp, by simp [he]⟩

theorem addToMap_foldl_nodup : ∀ (ops : List (String × GItem)) (m : SMMap),
    (m.map Prod.fst).Nodup →
    ((ops.foldl (fun m2 p => addToMap m2 p.1 p.2) m).map Prod.fst).Nodup
      ∧ (ops.foldl (fun m2 p => addToMap m2 p.1 p.2) m).length = m.length + ops.length
  | [], m, h => ⟨h, by simp⟩
  | p :: rest, m, h => by
    obtain ⟨k, heq, hfree, -⟩ := addToMap_committed m p.1 p.2
    have hnotmem : (p.1 ++ underscores k) ∉ m.map Prod.fst := by
      intro hmem
      rw [← containsKey_iff_mem] at hmem
      rw [hmem] at hfree
      exact Bool.noConfusion hfree
    have hnodup2 : ((addToMap m p.1 p.2).map Prod.fst).Nodup := by
      rw [heq, List.map_cons, List.nodup_cons]
      exact ⟨hnotmem, h⟩
    have hlen2 : (addToMap m p.1 p.2).length = m.length + 1 := by
      rw [heq, List.length_cons]
    obtain ⟨h1, h2⟩ := addToMap_foldl_nodup rest (addToMap m p.1 p.2) hnodup2
    refine ⟨by simpa using h1, ?_⟩
    rw [List.foldl_cons, h2, hlen2, List.length_cons]
    omega

/-- C5: identifier uniqueness is an invariant of the index — after any
sequence of inserts starting from the empty index no two entries share a
committed identifier, and every insert succeeds, adding exactly one entry;
an insert commits under the given identifier itself when that is absent,
and otherwise under the deterministic variant obtained by appending the
underscore marker character until the identifier is unused (every shorter
variant being still taken). -/
theorem addToMap_identifier_uniqueness (ops : List (String × GItem)) :
    (((ops.foldl (fun m p => addToMap m p.1 p.2) []).map Prod.fst).Nodup
      ∧ (ops.foldl (fun m p => addToMap m p.1 p.2) []).length = ops.length)
    ∧ (∀ (m : SMMap) (id : String) (item : GItem),
        containsKey m id = false → addToMap m id item = (id, item) :: m)
    ∧ (∀ (m : SMMap) (id : String) (item : GItem), ∃ k,
        addToMap m id item = (id ++ underscores k, item) :: m
          ∧ containsKey m (id ++ underscores k) = false
          ∧ ∀ j < k, containsKey m (id ++ underscores j) = true) := by
  refine ⟨?_, addToMap_absent, addToMap_committed⟩
  obtain ⟨h1, h2⟩ := addToMap_foldl_nodup ops [] (by simp)
  exact ⟨h1, by simpa using h2⟩

def itemA : GItem :=
  GItem.mk ItemType.nodeState "a" "A" "" ⟨⟨0, 0⟩, ⟨0, 0⟩⟩ GItemList.nil

/-- C5 witness: two inserts under the identical identifier a give an index
with the two distinct keys a and a_; the absent-identifier clause
instantiates at the empty index, and the committed-variant clause at the
singleton index already holding a. -/
theorem addToMap_identifier_uniqueness_witness :
    ((([("a", itemA), ("a", itemA)].foldl (fun m p => addToMap m p.1 p.2) []).map
      Prod.fst).Nodup)
      ∧ addToMap [] "a" itemA = [("a", itemA)]
      ∧ ∃ k, addToMap [("a", itemA)] "a" itemA =
            ("a" ++ underscores k, itemA) :: [("a", itemA)]
          ∧ containsKey [("a", itemA)] ("a" ++ underscores k) = false
          ∧ ∀ j < k, containsKey [("a", itemA)] ("a" ++ underscores j) = true :=
  ⟨(addToMap_identifier_uniqueness [("a", itemA), ("a", itemA)]).1.1,
    (addToMap_identifier_uniqueness []).2.1 [] "a" itemA rfl,
    (addToMap_identifier_uniqueness []).2.2 [("a", itemA)] "a" itemA⟩

theorem renameSM_trans_children (st : SMModelState) (n : String) :
    (renameSM st n).trans_children = st.trans_children := by
  unfold renameSM
  split <;> rfl

/-- C1 (amended): when the node conversion succeeds and the edge list has a
first unresolvable edge, loadGraph stops converting at that edge but keeps
everything built so far: the converted node tree stays attached under the
states aggregation and the transitions of the edges preceding the failing
one stay under the transitions aggregation — the hierarchy is not emptied
(the source error path returns without a second reset). -/
theorem loadGraph_aborts_keeping_partial_state (sm : CyberiadaSM)
    (m : SMMap) (items : GItemList)
    (pre : List CyberiadaEdge) (bad : CyberiadaEdge) (post : List CyberiadaEdge)
    (hconv : addTopNodes [] sm.nodes = some (m, items))
    (hedges : sm.edges = pre ++ bad :: post)
    (hpre : ∀ e ∈ pre, (convertEdge m e).isSome = true)
    (hbad : convertEdge m bad = none) :
    ∃ st, loadGraph (some sm) = some st
      ∧ st.states_children = items
      ∧ st.trans_children = pre.filterMap (fun e => convertEdge m e)
      ∧ st.states_map = m := by
  unfold loadGraph
  dsimp only
  rw [hconv, hedges]
  dsimp only
  rw [processEdges_stops_at_failure pre bad post m _ hpre hbad]
  refine ⟨_, rfl, rfl, ?_, rfl⟩
  show (renameSM { resetState with sm_version := sm.version } sm.name).trans_children
      ++ pre.filterMap (fun e => convertEdge m e) = pre.filterMap (fun e => convertEdge m e)
  rw [renameSM_trans_children]
  rfl

def rect0 : CybRect := ⟨0, 0, 10, 10⟩

def nodeS1 : CyberiadaNode :=
  CyberiadaNode.mk CybNodeType.cybNodeOther "s1" "Off" "" rect0 CyberiadaNodeList.nil

def topGroup : CyberiadaNode :=
  CyberiadaNode.mk CybNodeType.cybNodeOther "g" "Group" "" rect0
    (CyberiadaNodeList.cons nodeS1 CyberiadaNodeList.nil)

def itemS1 : GItem :=
  GItem.mk ItemType.nodeState "s1" "Off" "" (rectGeometry rect0) GItemList.nil

def mapS1 : SMMap := [("s1", itemS1)]

def goodEdge : CyberiadaEdge := ⟨"e0", "", "s1", "s1", ⟨0, 0⟩, ⟨0, 0⟩, []⟩

def badEdge : CyberiadaEdge := ⟨"e1", "", "x", "y", ⟨0, 0⟩, ⟨0, 0⟩, []⟩

def smBadEdge : CyberiadaSM :=
  ⟨"1.0", "Light", CyberiadaNodeList.cons topGroup CyberiadaNodeList.nil, [badEdge]⟩

def smPartial : CyberiadaSM :=
  ⟨"1.0", "Light", CyberiadaNodeList.cons topGroup CyberiadaNodeList.nil,
    [goodEdge, badEdge]⟩

/-- C1 counterexample: a document with one convertible state s1 under a
top-level group and a single edge whose endpoints x and y resolve to
nothing: after loadGraph the states aggregation still holds the converted
state (one item), refuting the claimed empty hierarchy; the transitions
aggregation is empty and the index resolves neither endpoint of the
offending edge. -/
theorem loadGraph_bad_edge_keeps_states_cex :
    (loadGraph (some smBadEdge)).map (fun st =>
      (itemsCount st.states_children, st.trans_children.length,
        containsKey st.states_map "x", containsKey st.states_map "y")) =
      some (1, 0, false, false) := rfl

/-- C1 witness: the amended claim instantiated at a concrete document with
one state, one resolvable edge and one unresolvable edge: the converted
state stays attached and exactly the first edge's transition is kept. -/
theorem loadGraph_aborts_keeping_partial_state_witness :
    ∃ st, loadGraph (some smPartial) = some st
      ∧ st.states_children = GItemList.cons itemS1 GItemList.nil
      ∧ st.trans_children = [goodEdge].filterMap (fun e => convertEdge mapS1 e)
      ∧ st.states_map = mapS1 :=
  loadGraph_aborts_keeping_partial_state smPartial mapS1
    (GItemList.cons itemS1 GItemList.nil) [goodEdge] badEdge []
    rfl rfl (by decide) rfl

theorem addNodes_append : ∀ (a b : CyberiadaNodeList) (m : SMMap),
    addNodes m (appendN a b) =
      (addNodes m a).bind (fun p =>
        (addNodes p.1 b).map (fun q => (q.1, appendG p.2 q.2)))
  | CyberiadaNodeList.nil, b, m => by
    cases h : addNodes m b with
    | none => simp [appendN, addNodes, h]
    | some q => simp [appendN, addNodes, h, appendG]
  | CyberiadaNodeList.cons n t, b, m => by
    cases h1 : addNode m n with
    | none => simp [appendN, addNodes, h1]
    | some p1 =>
      obtain ⟨m1, i1⟩ := p1
      have ih := addNodes_append t b m1
      cases h2 : addNodes m1 t with
      | none => simp [appendN, addNodes, h1, ih, h2]
      | some p2 =>
        obtain ⟨m2, is2⟩ := p2
        cases h3 : addNodes m2 b with
        | none => simp [appendN, addNodes, h1, ih, h2, h3]
        | some p3 =>
          obtain ⟨m3, is3⟩ := p3
          simp [appendN, addNodes, h1, ih, h2, h3, appendG]

theorem addTopNodes_eq_hoisted : ∀ (ns : CyberiadaNodeList) (m : SMMap)
    (res : SMMap × GItemList), addTopNodes m ns = some res →
    addNodes m (hoistChildren ns) = some res
  | CyberiadaNodeList.nil, m, res, h => by
    simpa [addTopNodes, hoistChildren, addNodes] using h
  | CyberiadaNodeList.cons (CyberiadaNode.mk ty id ti ac rect cs) t, m, res, h => by
    obtain ⟨res1, res2⟩ := res
    cases hcore : convertNodeCore m (CyberiadaNode.mk ty id ti ac rect cs) with
    | none =>
      simp [addTopNodes, hcore] at h
    | some it =>
      cases h1 : addNodes m cs with
      | none =>
        simp [addTopNodes, hcore, h1] at h
      | some p1 =>
        obtain ⟨m1, is1⟩ := p1
        cases h2 : addTopNodes m1 t with
        | none =>
          simp [addTopNodes, hcore, h1, h2] at h
        | some p2 =>
          obtain ⟨m2, is2⟩ := p2
          simp [addTopNodes, hcore, h1, h2] at h
          have ih := addTopNodes_eq_hoisted t m1 (m2, is2) h2
          rw [hoistChildren, addNodes_append cs (hoistChildren t) m, h1]
          simp [ih, h]

/-- C7: the converter never attaches a top-level node itself: whenever the
top-level conversion succeeds, its result — final index and attached item
forest — is exactly the non-top-level conversion of the hoisted children
forest (the concatenated child lists of the top-level nodes, attached
directly under the states aggregation); and on comment-free documents every
node below the top level is registered — each declared non-top-level
identifier is a key of the final index — and attached inside the pure image
of its parent node. -/
theorem addTopNodes_flattens_toplevel :
    (∀ (ns : CyberiadaNodeList) (m : SMMap) (res : SMMap × GItemList),
      addTopNodes m ns = some res → addNodes m (hoistChildren ns) = some res)
    ∧ (∀ (ns : CyberiadaNodeList) (m : SMMap), forestNoComments ns = true →
        ∃ m2, addTopNodes m ns = some (m2, pureForest (hoistChildren ns))
          ∧ ∀ i ∈ nonTopIds ns, containsKey m2 i = true) :=
  ⟨addTopNodes_eq_hoisted, fun ns m h =>
    (addTopNodes_noComments ns m h).elim fun m2 hh => ⟨m2, hh.1, hh.2.2⟩⟩

/-- C7 witness: at the concrete one-group document the top-level conversion
and the non-top-level conversion of the hoisted children agree on the same
index and item forest, and the registration clause yields an index holding
every hoisted identifier. -/
theorem addTopNodes_flattens_toplevel_witness :
    addNodes [] (hoistChildren smBadEdge.nodes) =
      some (mapS1, GItemList.cons itemS1 GItemList.nil)
      ∧ ∃ m2, addTopNodes [] smBadEdge.nodes =
          some (m2, pureForest (hoistChildren smBadEdge.nodes))
        ∧ ∀ i ∈ nonTopIds smBadEdge.nodes, containsKey m2 i = true :=
  ⟨addTopNodes_flattens_toplevel.1 smBadEdge.nodes []
    (mapS1, GItemList.cons itemS1 GItemList.nil) rfl,
   addTopNodes_flattens_toplevel.2 smBadEdge.nodes [] rfl⟩

/-- C6 (amended): for every comment-free document in which each edge
endpoint identifier names one of the non-top-level nodes, conversion yields
a hierarchy with exactly as many state/initial-state items as there are
non-top-level nodes and exactly one transition per edge under the
transitions aggregation, each transition's resolved source and target being
precisely the items the identifier index registers under the edge's
declared source and target identifiers.  (Comment nodes break the original
claim in the source: a comment is registered under a generated identifier,
so an edge naming its declared identifier aborts the edge loop — and once
the generated key is taken, identifier generation itself never
terminates.) -/
theorem loadGraph_roundtrip_counts (sm : CyberiadaSM)
    (hnc : forestNoComments sm.nodes = true)
    (hres : ∀ e ∈ sm.edges, e.sourceId ∈ nonTopIds sm.nodes
      ∧ e.targetId ∈ nonTopIds sm.nodes) :
    ∃ st, loadGraph (some sm) = some st
      ∧ itemsCount st.states_children = forestCount (hoistChildren sm.nodes)
      ∧ st.trans_children.length = sm.edges.length
      ∧ List.Forall₂ (fun (e : CyberiadaEdge) (t : TransItem) =>
          mapValue st.states_map e.sourceId = some t.source
            ∧ mapValue st.states_map e.targetId = some t.target)
          sm.edges st.trans_children := by
  obtain ⟨m2, hconv, -, hids⟩ := addTopNodes_noComments sm.nodes [] hnc
  have hsome : ∀ e ∈ sm.edges, (convertEdge m2 e).isSome = true := by
    intro e he
    obtain ⟨h1, h2⟩ := hres e he
    exact convertEdge_isSome m2 e (hids _ h1) (hids _ h2)
  obtain ⟨ts, hproc, hall⟩ := processEdges_all sm.edges m2
    { renameSM { resetState with sm_version := sm.version } sm.name with
      states_children := pureForest (hoistChildren sm.nodes), states_map := m2 } hsome
  refine ⟨processEdges m2
      { renameSM { resetState with sm_version := sm.version } sm.name with
        states_children := pureForest (hoistChildren sm.nodes), states_map := m2 }
      sm.edges, ?_, ?_, ?_, ?_⟩
  · unfold loadGraph
    dsimp only
    rw [hconv]
  · rw [hproc]
    exact itemsCount_pureForest _
  · rw [hproc]
    show ((renameSM { resetState with sm_version := sm.version } sm.name).trans_children
        ++ ts).length = sm.edges.length
    rw [renameSM_trans_children]
    show ts.length = sm.edges.length
    exact hall.length_eq.symm
  · rw [hproc]
    show List.Forall₂ _ sm.edges
      ((renameSM { resetState with sm_version := sm.version } sm.name).trans_children ++ ts)
    rw [renameSM_trans_children]
    show List.Forall₂ _ sm.edges ts
    exact List.Forall₂.imp (fun a b hab => convertEdge_endpoints m2 a b hab) hall

def nodeOff : CyberiadaNode :=
  CyberiadaNode.mk CybNodeType.cybNodeOther "s1" "Off" "" rect0 CyberiadaNodeList.nil

def nodeOn : CyberiadaNode :=
  CyberiadaNode.mk CybNodeType.cybNodeOther "s2" "On" "" rect0 CyberiadaNodeList.nil

def topLight : CyberiadaNode :=
  CyberiadaNode.mk CybNodeType.cybNodeOther "g" "" "" rect0
    (CyberiadaNodeList.cons nodeOff (CyberiadaNodeList.cons nodeOn CyberiadaNodeList.nil))

def edgeTurnOn : CyberiadaEdge := ⟨"e1", "turn_on", "s1", "s2", ⟨0, 0⟩, ⟨0, 0⟩, []⟩

def smLight : CyberiadaSM :=
  ⟨"1.0", "Light", CyberiadaNodeList.cons topLight CyberiadaNodeList.nil, [edgeTurnOn]⟩

/-- C6 witness: the Light document — two states s1, s2 under one top-level
group and one edge s1 to s2 — loads into 2 items and 1 transition with
resolved endpoints equal to the registered items. -/
theorem loadGraph_roundtrip_counts_witness :
    ∃ st, loadGraph (some smLight) = some st
      ∧ itemsCount st.states_children = forestCount (hoistChildren smLight.nodes)
      ∧ st.trans_children.length = smLight.edges.length
      ∧ List.Forall₂ (fun (e : CyberiadaEdge) (t : TransItem) =>
          mapValue st.states_map e.sourceId = some t.source
            ∧ mapValue st.states_map e.targetId = some t.target)
          smLight.edges st.trans_children :=
  loadGraph_roundtrip_counts smLight rfl (by decide)

def nodeCmt : CyberiadaNode :=
  CyberiadaNode.mk CybNodeType.cybNodeComment "c" "" "note" rect0 CyberiadaNodeList.nil

def topCmt : CyberiadaNode :=
  CyberiadaNode.mk CybNodeType.cybNodeOther "g" "" "" rect0
    (CyberiadaNodeList.cons nodeCmt CyberiadaNodeList.nil)

def edgeCmt : CyberiadaEdge := ⟨"e1", "", "c", "c", ⟨0, 0⟩, ⟨0, 0⟩, []⟩

def smCommentEdge : CyberiadaSM :=
  ⟨"1.0", "SM", CyberiadaNodeList.cons topCmt CyberiadaNodeList.nil, [edgeCmt]⟩

/-- C6 counterexample: a document with N = 1 non-top-level node — a comment
with declared identifier c — and M = 1 edge from c to c, whose endpoints
name that node: the converter registers the comment under the generated
identifier id-%d instead of c, the endpoint lookup fails, and the load ends
with 1 item but 0 transitions where the claim demands exactly 1. -/
theorem loadGraph_comment_endpoint_cex :
    (loadGraph (some smCommentEdge)).map (fun st =>
      (itemsCount st.states_children, st.trans_children.length,
        containsKey st.states_map "c", containsKey st.states_map "id-%d")) =
      some (1, 0, false, true)
      ∧ ("c" ∈ nonTopIds smCommentEdge.nodes) ∧ smCommentEdge.edges.length = 1 :=
  ⟨rfl, by decide, rfl⟩
